import Mathlib

/-!
Verification development for the easyjson Go library.

The library wraps a decoded JSON value (`JSONValue { data interface{} }`)
and offers navigation (`Get`, `Q`, `Path`), total coercions (`AsString`,
`AsInt`, ...), smart getters (`GetString`, ...), array combinators
(`FilterArray`, `MapArray`, `ReduceArray`, `GroupBy`, ...), in-place
mutation (`Set`, `Delete`), lenient parsing (`ParseLenient`,
`FixCommonIssues`) and path discovery (`FindPath`).

The Go code is embedded shallowly:

* `GoVal` models the dynamic `interface{}` payload of a `JSONValue`.
  Go `map[string]interface{}` is modelled as an association list with
  unique keys (the model fixes an iteration order where Go leaves it
  unspecified); Go `[]interface{}` as a `List`; Go `int` as `Int`
  (the library never relies on overflow); Go `float64` as `Rat`
  (no claim depends on binary rounding).
* stateful methods (`Set`, `Delete`) are translated by explicit state
  passing: they return the error result together with the receiver's
  data after the call.
* Go standard-library calls (`strings.Split`, `strconv.Atoi`,
  `strings.ReplaceAll`, `encoding/json` decoding, ...) are modelled by
  the Lean functions below, following their documented behaviour.
-/

namespace EasyJson

/-- Model of the dynamic value held by a `JSONValue` (`data interface{}`).
`vnull` is Go `nil`; `vint` covers Go `int` values that enter through the
API; decoded JSON numbers are `vfloat` (Go decodes every number to
`float64`, modelled as `Rat`). -/
inductive GoVal : Type where
  | vnull : GoVal
  | vbool (b : Bool) : GoVal
  | vint (n : Int) : GoVal
  | vfloat (q : Rat) : GoVal
  | vstr (s : String) : GoVal
  | varr (xs : List GoVal) : GoVal
  | vobj (m : List (String × GoVal)) : GoVal

/-- First-match association-list lookup, modelling Go map indexing
`v[keyStr]` (keys in a Go map are unique, so first match is the match). -/
def lookupA : List (String × GoVal) → String → Option GoVal
  | [], _ => none
  | (k, v) :: rest, s => if k = s then some v else lookupA rest s

/-- Go map assignment `v[keyStr] = value`: replace the binding if the key
is present, otherwise add it. -/
def objSet : List (String × GoVal) → String → GoVal → List (String × GoVal)
  | [], k, val => [(k, val)]
  | (k', v') :: rest, k, val =>
    if k' = k then (k, val) :: rest else (k', v') :: objSet rest k val

/-- Go `delete(v, keyStr)`: remove the binding for the key (no error if
absent). -/
def objDel : List (String × GoVal) → String → List (String × GoVal)
  | [], _ => []
  | (k', v') :: rest, k => if k' = k then rest else (k', v') :: objDel rest k

/-- The `IsNull` method: `jv.data == nil`. -/
def isNullB : GoVal → Bool
  | .vnull => true
  | _ => false

/-- The `IsArray` method: type assertion `jv.data.([]interface{})`. -/
def isArrB : GoVal → Bool
  | .varr _ => true
  | _ => false

/-- The `Get` method from easyjson.go: on an object a string key is looked
up; on an array an int key is bounds-checked; every other combination
returns the null value. -/
def getV : GoVal → GoVal → GoVal
  | .vobj m, .vstr s => (lookupA m s).getD .vnull
  | .varr xs, .vint i => if i < 0 then .vnull else xs.getD i.toNat .vnull
  | _, _ => .vnull

/-- The `Has` method: key existence for objects, index validity for
arrays, false otherwise. -/
def hasV : GoVal → GoVal → Bool
  | .vobj m, .vstr s => (lookupA m s).isSome
  | .varr xs, .vint i => decide (0 ≤ i ∧ i < (xs.length : Int))
  | _, _ => false

/-- The `Q` method: chained `Get`, breaking out early when an intermediate
result is null. -/
def qV : GoVal → List GoVal → GoVal
  | v, [] => v
  | v, k :: ks =>
    let c := getV v k
    if isNullB c then c else qV c ks

/-- Helper for splitting on dots: the field before the first dot, and
the list of remaining fields. -/
def splitDotP : List Char → List Char × List (List Char)
  | [] => ([], [])
  | c :: cs =>
    let p := splitDotP cs
    if c = '.' then ([], p.1 :: p.2) else (c :: p.1, p.2)

/-- Character-level model of Go `strings.Split(s, ".")`: split on every
dot, keeping empty fields. -/
def splitDotL (l : List Char) : List (List Char) :=
  (splitDotP l).1 :: (splitDotP l).2

/-- Go `strings.Split(path, ".")` on `String`. -/
def goSplitDot (s : String) : List String :=
  (splitDotL s.data).map (fun l => ⟨l⟩)

/-- Digit run to its numeric value. -/
def digitsVal (l : List Char) : Nat :=
  l.foldl (fun a c => a * 10 + (c.toNat - 48)) 0

/-- Model of Go `strconv.Atoi`: optional sign followed by a nonempty
digit run covering the whole string; anything else is an error (`none`).
Go's range error on huge inputs is not modelled (the library never
depends on it). -/
def goAtoi (s : String) : Option Int :=
  match s.data with
  | [] => none
  | '+' :: rest =>
    if rest ≠ [] ∧ rest.all Char.isDigit then some (digitsVal rest : Int) else none
  | '-' :: rest =>
    if rest ≠ [] ∧ rest.all Char.isDigit then some (-(digitsVal rest : Int)) else none
  | l =>
    if l.all Char.isDigit then some (digitsVal l : Int) else none

/-- One step of `Path`: a segment that parses as an integer is used as an
array index, otherwise as an object key. -/
def segStep (v : GoVal) (seg : String) : GoVal :=
  match goAtoi seg with
  | some i => getV v (.vint i)
  | none => getV v (.vstr seg)

/-- The loop body of the `Path` method over the split segments: empty
segments are skipped, and the walk breaks at the first null result. -/
def pathSteps : GoVal → List String → GoVal
  | v, [] => v
  | v, seg :: rest =>
    if seg = "" then pathSteps v rest
    else
      let c := segStep v seg
      if isNullB c then c else pathSteps c rest

/-- The `Path` method: split on dots and walk. -/
def pathV (v : GoVal) (path : String) : GoVal :=
  pathSteps v (goSplitDot path)

/-- Byte-lexicographic strict order on character lists, modelling Go's
`<` on strings (byte-wise; for ASCII inputs characters and bytes agree). -/
def charsLt : List Char → List Char → Bool
  | [], [] => false
  | [], _ :: _ => true
  | _ :: _, [] => false
  | a :: as, b :: bs =>
    if a.val < b.val then true
    else if b.val < a.val then false
    else charsLt as bs

/-- Go string comparison `a > b`. -/
def strGtGo (a b : String) : Bool := charsLt b.data a.data

/-- Insert a rendered key/value pair keeping keys sorted. -/
def insertSorted (x : String × String) : List (String × String) → List (String × String)
  | [] => [x]
  | y :: ys => if charsLt y.1.data x.1.data then y :: insertSorted x ys else x :: y :: ys

/-- Sort rendered key/value pairs by key, modelling Go's sorted map
printing (`fmt`) and sorted map marshalling (`encoding/json`). -/
def sortPairs : List (String × String) → List (String × String)
  | [] => []
  | x :: xs => insertSorted x (sortPairs xs)

/-- Approximate model of Go float64 rendering (`strconv`, shortest form):
integral values render without a decimal point exactly as Go does; the
non-integral placeholder form is never evaluated by any theorem below. -/
def fmtFloatGo (q : Rat) : String :=
  if q.den = 1 then toString q.num else toString q.num ++ "/" ++ toString q.den

mutual

/-- Model of Go `fmt.Sprintf("%v", data)` on decoded JSON values:
`nil` renders as `<nil>`, arrays as `[x y]`, maps as `map[k:v]` with keys
sorted. -/
def govFmt : GoVal → String
  | .vnull => "<nil>"
  | .vbool b => if b then "true" else "false"
  | .vint n => toString n
  | .vfloat q => fmtFloatGo q
  | .vstr s => s
  | .varr xs => "[" ++ String.intercalate " " (govFmtList xs) ++ "]"
  | .vobj m =>
    "map[" ++
      String.intercalate " "
        ((sortPairs (govFmtEntries m)).map (fun p => p.1 ++ ":" ++ p.2)) ++ "]"

/-- Render the elements of a Go slice for `%v`. -/
def govFmtList : List GoVal → List String
  | [] => []
  | v :: vs => govFmt v :: govFmtList vs

/-- Render the entries of a Go map for `%v` (sorted afterwards). -/
def govFmtEntries : List (String × GoVal) → List (String × String)
  | [] => []
  | (k, v) :: rest => (k, govFmt v) :: govFmtEntries rest

end

/-- The `AsString` method: a string is returned as-is, everything else
falls through to `fmt.Sprintf("%v", jv.data)`. -/
def asString : GoVal → String
  | .vstr s => s
  | v => govFmt v

/-- ASCII model of Go `strings.ToLower` (the library only compares
against the ASCII literal "true"). -/
def toLowerGo (s : String) : String := ⟨s.data.map Char.toLower⟩

/-- Model of Go `strconv.ParseFloat` on its decimal forms: sign, digits
with optional fraction, optional exponent. Go's `Inf`/`NaN`/hex-float
forms are not modelled (no theorem evaluates them). -/
def goParseFloat (s : String) : Option Rat :=
  let l := s.data
  let (neg, l) :=
    match l with
    | '+' :: r => (false, r)
    | '-' :: r => (true, r)
    | r => (false, r)
  let (ip, l) := l.span Char.isDigit
  let (fp, l) :=
    match l with
    | '.' :: r =>
      let p := r.span Char.isDigit
      (some p.1, p.2)
    | r => (none, r)
  if ip = [] ∧ fp.getD [] = [] then none
  else
    let fd := (fp.getD []).length
    let mant : Rat :=
      ((digitsVal ip * 10 ^ fd + digitsVal (fp.getD []) : Nat) : Rat) / ((10 ^ fd : Nat) : Rat)
    match l with
    | [] => some (if neg then -mant else mant)
    | e :: r =>
      if e = 'e' ∨ e = 'E' then
        let (eneg, r) :=
          match r with
          | '+' :: r2 => (false, r2)
          | '-' :: r2 => (true, r2)
          | r2 => (false, r2)
        let (ed, r) := r.span Char.isDigit
        if ed = [] ∨ r ≠ [] then none
        else
          let scale : Rat := ((10 ^ digitsVal ed : Nat) : Rat)
          let mant := if eneg then mant / scale else mant * scale
          some (if neg then -mant else mant)
      else none

/-- The `AsInt` method: float64 truncates toward zero, int passes
through, a numeric string parses, everything else is 0. -/
def asInt : GoVal → Int
  | .vfloat q => if q < 0 then ⌈q⌉ else ⌊q⌋
  | .vint n => n
  | .vstr s => (goAtoi s).getD 0
  | _ => 0

/-- The `AsFloat` method. -/
def asFloat : GoVal → Rat
  | .vfloat q => q
  | .vint n => (n : Rat)
  | .vstr s => (goParseFloat s).getD 0
  | _ => 0

/-- The `AsBool` method. -/
def asBool : GoVal → Bool
  | .vbool b => b
  | .vstr s => toLowerGo s == "true"
  | .vfloat q => decide (q ≠ 0)
  | .vint n => decide (n ≠ 0)
  | _ => false

/-- The `AsArray` method (elements, dropping the per-element wrapping). -/
def asArray : GoVal → List GoVal
  | .varr xs => xs
  | _ => []

/-- The `AsObject` method. -/
def asObject : GoVal → List (String × GoVal)
  | .vobj m => m
  | _ => []

/-- The `GetString` smart getter from smart_getters.go: with more than
one argument whose last is a string, that string is the default and the
rest is the path; otherwise the whole list is the path and the default
is the zero string. -/
def getString (v : GoVal) (keys : List GoVal) : String :=
  let pd : List GoVal × String :=
    if keys.length > 1 then
      match keys.getLast? with
      | some (.vstr d) => (keys.dropLast, d)
      | _ => (keys, "")
    else (keys, "")
  let r := qV v pd.1
  if isNullB r then pd.2 else asString r

/-- The `GetInt` smart getter. -/
def getInt (v : GoVal) (keys : List GoVal) : Int :=
  let pd : List GoVal × Int :=
    if keys.length > 1 then
      match keys.getLast? with
      | some (.vint d) => (keys.dropLast, d)
      | _ => (keys, 0)
    else (keys, 0)
  let r := qV v pd.1
  if isNullB r then pd.2 else asInt r

/-- The `GetBool` smart getter. -/
def getBool (v : GoVal) (keys : List GoVal) : Bool :=
  let pd : List GoVal × Bool :=
    if keys.length > 1 then
      match keys.getLast? with
      | some (.vbool d) => (keys.dropLast, d)
      | _ => (keys, false)
    else (keys, false)
  let r := qV v pd.1
  if isNullB r then pd.2 else asBool r

/-- The `GetFloat` smart getter. -/
def getFloat (v : GoVal) (keys : List GoVal) : Rat :=
  let pd : List GoVal × Rat :=
    if keys.length > 1 then
      match keys.getLast? with
      | some (.vfloat d) => (keys.dropLast, d)
      | _ => (keys, 0)
    else (keys, 0)
  let r := qV v pd.1
  if isNullB r then pd.2 else asFloat r

/-- The `FilterArray` method, with explicit state passing: the first
component is the returned value, the second the receiver's data after
the call. The source never assigns to `jv.data` here, so the receiver
comes back unchanged. -/
def filterArrayS (v : GoVal) (p : GoVal → Bool) : GoVal × GoVal :=
  (match v with
   | .varr xs => .varr (xs.filter p)
   | _ => .varr [], v)

/-- The `MapArray` method, with the same state passing. -/
def mapArrayS (v : GoVal) (f : GoVal → GoVal) : GoVal × GoVal :=
  (match v with
   | .varr xs => .varr (xs.map f)
   | _ => .varr [], v)

/-- The `ReduceArray` method: a left fold; on a non-array the initial
accumulator is returned untouched. -/
def reduceArray (v : GoVal) (initial : GoVal) (f : GoVal → GoVal → GoVal) : GoVal :=
  match v with
  | .varr xs => xs.foldl f initial
  | _ => initial

/-- The `FindInArray` method: first match or null; on a non-array null. -/
def findInArray (v : GoVal) (p : GoVal → Bool) : GoVal :=
  match v with
  | .varr xs => (xs.find? p).getD .vnull
  | _ => .vnull

/-- The value-type switch inside `FindByField`. -/
def fieldEq (field : GoVal) (value : GoVal) : Bool :=
  match value with
  | .vstr s => asString field == s
  | .vint n => asInt field == n
  | .vbool b => asBool field == b
  | .vfloat q => decide (asFloat field = q)
  | _ => false

/-- The `FindByField` method. -/
def findByField (v : GoVal) (fieldName : String) (value : GoVal) : GoVal :=
  findInArray v (fun item => fieldEq (getV item (.vstr fieldName)) value)

/-- The bucket key `item.GetString(fieldName)` used by `GroupBy`. -/
def groupKeyOf (item : GoVal) (fieldName : String) : String :=
  getString item [.vstr fieldName]

/-- The `GroupBy` method. The returned Go map `map[string][]*JSONValue`
is modelled as a total function from keys to buckets (absent keys map to
the empty bucket, as a Go map read does). -/
def groupByGo (v : GoVal) (fieldName : String) : String → List GoVal :=
  match v with
  | .varr xs =>
    xs.foldl
      (fun g item => fun k =>
        if k = groupKeyOf item fieldName then g k ++ [item] else g k)
      (fun _ => [])
  | _ => fun _ => []

/-- One full adjacent-swap sweep of the `SortBy` bubble sort. -/
def bubblePass (fld : String) : List GoVal → List GoVal
  | a :: b :: rest =>
    if strGtGo (getString a [.vstr fld]) (getString b [.vstr fld])
    then b :: bubblePass fld (a :: rest)
    else a :: bubblePass fld (b :: rest)
  | l => l

/-- The outer loop of the `SortBy` bubble sort. The Go inner loop skips
the already-sorted tail; a full sweep leaves that tail unchanged, so each
pass is modelled as a full sweep. -/
def bubbleIter (fld : String) : Nat → List GoVal → List GoVal
  | 0, l => l
  | k + 1, l => bubbleIter fld k (bubblePass fld l)

/-- The `SortBy` method. -/
def sortByGo (v : GoVal) (fld : String) : GoVal :=
  match v with
  | .varr xs => .varr (bubbleIter fld (xs.length - 1) xs)
  | _ => .varr []

/-- Hex digit used by the JSON string escaper. -/
def hexDigit (n : Nat) : Char :=
  if n < 10 then Char.ofNat (48 + n) else Char.ofNat (87 + n)

/-- Escaping of one character by Go `json.Marshal` (which also
HTML-escapes `<`, `>`, `&` by default). -/
def jsonQuoteChar (c : Char) : List Char :=
  if c = '"' then ['\\', '"']
  else if c = '\\' then ['\\', '\\']
  else if c = '\n' then ['\\', 'n']
  else if c = '\r' then ['\\', 'r']
  else if c = '\t' then ['\\', 't']
  else if c = '<' then ['\\', 'u', '0', '0', '3', 'c']
  else if c = '>' then ['\\', 'u', '0', '0', '3', 'e']
  else if c = '&' then ['\\', 'u', '0', '0', '2', '6']
  else if c.toNat < 32 then
    ['\\', 'u', '0', '0', hexDigit (c.toNat / 16), hexDigit (c.toNat % 16)]
  else [c]

/-- Go `json.Marshal` of a string. -/
def jsonQuote (s : String) : String :=
  ⟨'"' :: s.data.flatMap jsonQuoteChar ++ ['"']⟩

mutual

/-- Model of Go `json.Marshal` on decoded JSON values (`Dumps`): compact
output, map keys sorted. Floats reuse the approximate renderer. -/
def marshalV : GoVal → String
  | .vnull => "null"
  | .vbool b => if b then "true" else "false"
  | .vint n => toString n
  | .vfloat q => fmtFloatGo q
  | .vstr s => jsonQuote s
  | .varr xs => "[" ++ String.intercalate "," (marshalList xs) ++ "]"
  | .vobj m =>
    "\x7b" ++
      String.intercalate ","
        ((sortPairs (marshalEntries m)).map (fun p => jsonQuote p.1 ++ ":" ++ p.2)) ++ "\x7d"

/-- Marshal the elements of an array. -/
def marshalList : List GoVal → List String
  | [] => []
  | v :: vs => marshalV v :: marshalList vs

/-- Marshal map entries (sorted afterwards). -/
def marshalEntries : List (String × GoVal) → List (String × String)
  | [] => []
  | (k, v) :: rest => (k, marshalV v) :: marshalEntries rest

end

/-- The `String` method: `Dumps()` output (marshalling a decoded JSON
tree never errors, so the `%v` fallback is unreachable). -/
def jvString (v : GoVal) : String := marshalV v

/-- The dedup loop of `Unique`, carrying the `seen` set. -/
def uniqueAux : List GoVal → List String → List GoVal
  | [], _ => []
  | x :: rest, seen =>
    let s := jvString x
    if seen.contains s then uniqueAux rest seen
    else x :: uniqueAux rest (s :: seen)

/-- The `Unique` method. -/
def uniqueGo (v : GoVal) : GoVal :=
  match v with
  | .varr xs => .varr (uniqueAux xs [])
  | _ => .varr []

/-- The `Take` method: Go clamps `n` to the length, and a negative `n`
runs zero loop iterations. -/
def takeGo (v : GoVal) (n : Int) : GoVal :=
  match v with
  | .varr xs => .varr (xs.take n.toNat)
  | _ => .varr []

/-- The `Skip` method: for `n < length` the loop reads indices `n` to
`length-1` through `Get`, so a negative `n` contributes leading nulls. -/
def skipGo (v : GoVal) (n : Int) : GoVal :=
  match v with
  | .varr xs =>
    if (xs.length : Int) ≤ n then .varr []
    else
      .varr ((List.range ((xs.length : Int) - n).toNat).map
        (fun j => getV (.varr xs) (.vint (n + j))))
  | _ => .varr []

/-- The `Set` method, with explicit state passing: the first component is
the returned error (`none` on success), the second the receiver's data
after the call. -/
def setV (v key val : GoVal) : Option String × GoVal :=
  match v with
  | .vobj m =>
    match key with
    | .vstr s => (none, .vobj (objSet m s val))
    | _ => (some "key must be string for object", .vobj m)
  | .varr xs =>
    match key with
    | .vint i =>
      if 0 ≤ i ∧ i < (xs.length : Int)
      then (none, .varr (xs.set i.toNat val))
      else (some "index out of range", .varr xs)
    | _ => (some "key must be int for array", .varr xs)
  | _ => (some "cannot set on non-object/array type", v)

/-- The `Delete` method, with the same state passing. -/
def deleteV (v key : GoVal) : Option String × GoVal :=
  match v with
  | .vobj m =>
    match key with
    | .vstr s => (none, .vobj (objDel m s))
    | _ => (some "key must be string for object", .vobj m)
  | .varr xs =>
    match key with
    | .vint i =>
      if 0 ≤ i ∧ i < (xs.length : Int)
      then (none, .varr (xs.eraseIdx i.toNat))
      else (some "index out of range", .varr xs)
    | _ => (some "key must be int for array", .varr xs)
  | _ => (some "cannot delete from non-object/array type", v)

/-- JSON insignificant whitespace, skipped by the decoder. -/
def skipWsJ (l : List Char) : List Char :=
  l.dropWhile (fun c => c == ' ' || c == '\t' || c == '\n' || c == '\r')

/-- Value of a hex digit. -/
def hexVal (c : Char) : Nat :=
  if 97 ≤ c.toNat then c.toNat - 87
  else if 65 ≤ c.toNat then c.toNat - 55
  else c.toNat - 48

/-- Hex-digit test used by the `\uXXXX` escape. -/
def isHexDigitGo (c : Char) : Bool :=
  c.isDigit || (97 ≤ c.toNat && c.toNat ≤ 102) || (65 ≤ c.toNat && c.toNat ≤ 70)

/-- Body of a JSON string literal after the opening quote: the decoded
characters and the input after the closing quote. Surrogate-pair
combination of `\uXXXX` escapes is not modelled (never exercised). -/
def parseStrBody : List Char → Option (List Char × List Char)
  | [] => none
  | '"' :: r => some ([], r)
  | '\\' :: e :: r =>
    match e with
    | '"' => (parseStrBody r).map (fun p => ('"' :: p.1, p.2))
    | '\\' => (parseStrBody r).map (fun p => ('\\' :: p.1, p.2))
    | '/' => (parseStrBody r).map (fun p => ('/' :: p.1, p.2))
    | 'b' => (parseStrBody r).map (fun p => (Char.ofNat 8 :: p.1, p.2))
    | 'f' => (parseStrBody r).map (fun p => (Char.ofNat 12 :: p.1, p.2))
    | 'n' => (parseStrBody r).map (fun p => ('\n' :: p.1, p.2))
    | 'r' => (parseStrBody r).map (fun p => ('\r' :: p.1, p.2))
    | 't' => (parseStrBody r).map (fun p => ('\t' :: p.1, p.2))
    | 'u' =>
      match r with
      | h1 :: h2 :: h3 :: h4 :: r2 =>
        if isHexDigitGo h1 && isHexDigitGo h2 && isHexDigitGo h3 && isHexDigitGo h4 then
          (parseStrBody r2).map (fun p =>
            (Char.ofNat (hexVal h1 * 4096 + hexVal h2 * 256 + hexVal h3 * 16 + hexVal h4)
              :: p.1, p.2))
        else none
      | _ => none
    | _ => none
  | c :: r =>
    if c.toNat < 32 then none
    else (parseStrBody r).map (fun p => (c :: p.1, p.2))

/-- Exponent tail of a JSON number, after the `e`/`E`. -/
def parseExpTail (r : List Char) : Option (Bool × Nat × List Char) :=
  let p :=
    match r with
    | '+' :: t => (false, t)
    | '-' :: t => (true, t)
    | t => (false, t)
  let d := p.2.span Char.isDigit
  if d.1 = [] then none else some (p.1, digitsVal d.1, d.2)

/-- A JSON number per the strict grammar (no leading zero, no leading
`+`); decoded to `float64`, here `Rat`. -/
def parseNum (cs : List Char) : Option (GoVal × List Char) :=
  let sp :=
    match cs with
    | '-' :: r => (true, r)
    | r => (false, r)
  let ipp := sp.2.span Char.isDigit
  match ipp.1 with
  | [] => none
  | d :: ds =>
    if d = '0' ∧ ds ≠ [] then none
    else
      let fr : Option (List Char × List Char) :=
        match ipp.2 with
        | '.' :: r =>
          let p := r.span Char.isDigit
          if p.1 = [] then none else some (p.1, p.2)
        | r => some ([], r)
      match fr with
      | none => none
      | some (fs, l2) =>
        let ex :=
          match l2 with
          | 'e' :: r => parseExpTail r
          | 'E' :: r => parseExpTail r
          | r => some (false, 0, r)
        match ex with
        | none => none
        | some (eneg, ev, l3) =>
          let fd := fs.length
          let mant : Rat :=
            ((digitsVal ipp.1 * 10 ^ fd + digitsVal fs : Nat) : Rat) / ((10 ^ fd : Nat) : Rat)
          let scale : Rat := ((10 ^ ev : Nat) : Rat)
          let q := if eneg then mant / scale else mant * scale
          some (.vfloat (if sp.1 then -q else q), l3)

mutual

/-- Fuel-indexed model of the strict decoder (`encoding/json`) for one
JSON value: literals, strings, numbers, arrays, objects. The fuel only
bounds recursion depth; `Loads` supplies more than enough. -/
def parseVal : Nat → List Char → Option (GoVal × List Char)
  | 0, _ => none
  | f + 1, cs =>
    let l := skipWsJ cs
    match l with
    | 'n' :: 'u' :: 'l' :: 'l' :: r => some (.vnull, r)
    | 't' :: 'r' :: 'u' :: 'e' :: r => some (.vbool true, r)
    | 'f' :: 'a' :: 'l' :: 's' :: 'e' :: r => some (.vbool false, r)
    | '"' :: r => (parseStrBody r).map (fun p => (.vstr ⟨p.1⟩, p.2))
    | '{' :: r =>
      (match skipWsJ r with
       | '}' :: r2 => some (.vobj [], r2)
       | r2 => (parseMembers f r2 []).map (fun p => (.vobj p.1, p.2)))
    | '[' :: r =>
      (match skipWsJ r with
       | ']' :: r2 => some (.varr [], r2)
       | r2 => (parseElems f r2 []).map (fun p => (.varr p.1, p.2)))
    | _ => parseNum l

/-- Members of a JSON object (duplicate keys overwrite, as a Go map
assignment does). -/
def parseMembers : Nat → List Char → List (String × GoVal) →
    Option (List (String × GoVal) × List Char)
  | 0, _, _ => none
  | f + 1, cs, acc =>
    match skipWsJ cs with
    | '"' :: r =>
      (match parseStrBody r with
       | none => none
       | some (kcs, r2) =>
         match skipWsJ r2 with
         | ':' :: r3 =>
           (match parseVal f r3 with
            | none => none
            | some (v, r4) =>
              let acc := objSet acc ⟨kcs⟩ v
              match skipWsJ r4 with
              | ',' :: r5 => parseMembers f r5 acc
              | '}' :: r5 => some (acc, r5)
              | _ => none)
         | _ => none)
    | _ => none

/-- Elements of a JSON array. -/
def parseElems : Nat → List Char → List GoVal → Option (List GoVal × List Char)
  | 0, _, _ => none
  | f + 1, cs, acc =>
    match parseVal f cs with
    | none => none
    | some (v, r) =>
      match skipWsJ r with
      | ',' :: r2 => parseElems f r2 (acc ++ [v])
      | ']' :: r2 => some (acc ++ [v], r2)
      | _ => none

end

/-- The `Loads` function: strict decoding of the whole input, with only
whitespace allowed after the value (as `json.Unmarshal` requires). -/
def Loads (s : String) : Option GoVal :=
  match parseVal (2 * s.data.length + 4) s.data with
  | some (v, rest) => if skipWsJ rest = [] then some v else none
  | none => none

/-- Scanner of Go `strings.ReplaceAll` for a nonempty pattern:
non-overlapping left-to-right replacement. The extra argument is plain
fuel so the recursion is structural (a replacement consumes at least one
character, so one unit of fuel per character suffices). -/
def replaceAllAux (p : Char) (ps rep : List Char) : Nat → List Char → List Char
  | 0, l => l
  | _ + 1, [] => []
  | f + 1, c :: rest =>
    if (p :: ps).isPrefixOf (c :: rest)
    then rep ++ replaceAllAux p ps rep f (rest.drop ps.length)
    else c :: replaceAllAux p ps rep f rest

/-- Go `strings.ReplaceAll` with an empty pattern inserts the
replacement around every character (never used by the library). -/
def replaceAllEmpty (rep : List Char) : List Char → List Char
  | [] => rep
  | c :: rest => rep ++ c :: replaceAllEmpty rep rest

/-- Go `strings.ReplaceAll`. -/
def goReplaceAll (s pat rep : String) : String :=
  match pat.data with
  | [] => ⟨replaceAllEmpty rep.data s.data⟩
  | p :: ps => ⟨replaceAllAux p ps rep.data s.data.length s.data⟩

/-- Scanner of Go `strings.Contains`. -/
def containsSubAux (pl : List Char) : List Char → Bool
  | [] => pl.isEmpty
  | c :: rest => pl.isPrefixOf (c :: rest) || containsSubAux pl rest

/-- Go `strings.Contains`. -/
def goContains (s sub : String) : Bool := containsSubAux sub.data s.data

/-- The three textual replacements of `FixCommonIssues`:
`True`→`true`, `False`→`false`, `None`→`null`, in that order. -/
def replaceTFN (s : String) : String :=
  goReplaceAll (goReplaceAll (goReplaceAll s "True" "true") "False" "false") "None" "null"

/-- The `FixCommonIssues` function from safe_parsing.go: the three
replacements, then single quotes become double quotes only when the
result holds no double quote but does hold a single quote. -/
def fixCommonIssues (s : String) : String :=
  let fixed := replaceTFN s
  if ¬ goContains fixed "\"" ∧ goContains fixed "'"
  then goReplaceAll fixed "'" "\""
  else fixed

/-- The `ParseWithFixes` function: strict parse, then strict parse of the
repaired text. -/
def parseWithFixes (s : String) : Option GoVal :=
  match Loads s with
  | some v => some v
  | none => Loads (fixCommonIssues s)

/-- ASCII model of the whitespace set trimmed by `strings.TrimSpace`. -/
def isSpaceGo (c : Char) : Bool :=
  c == ' ' || c == '\t' || c == '\n' || c == '\r' || c.toNat == 11 || c.toNat == 12

/-- Go `strings.TrimSpace`. -/
def goTrimSpace (s : String) : String :=
  ⟨((s.data.dropWhile isSpaceGo).reverse.dropWhile isSpaceGo).reverse⟩

/-- The depth-scanning loop of `ParseLenient`'s third strategy. The `break`
in the Go switch only leaves the switch, so the loop always runs to the
end and `e` records the last offset at which the depth returned to zero;
a backslash toggles the escape flag and skips its reset. Offsets are
character offsets (Go uses byte offsets; they agree on ASCII input). -/
def scanEndAux : List Char → Nat → Int → Bool → Bool → Nat → Nat
  | [], _, _, _, _, e => e
  | c :: rest, i, depth, inStr, esc, e =>
    if c = '\\' then
      scanEndAux rest (i + 1) depth inStr (!esc) e
    else if c = '"' then
      scanEndAux rest (i + 1) depth (if !esc then !inStr else inStr) false e
    else if c = '{' ∨ c = '[' then
      scanEndAux rest (i + 1) (if inStr then depth else depth + 1) inStr false e
    else if c = '}' ∨ c = ']' then
      if inStr then scanEndAux rest (i + 1) depth inStr false e
      else scanEndAux rest (i + 1) (depth - 1) inStr false (if depth - 1 = 0 then i + 1 else e)
    else
      scanEndAux rest (i + 1) depth inStr false e

/-- The `ParseLenient` function: strict parse, repaired parse, prefix
extraction by depth scanning, empty object. -/
def parseLenient (s : String) : GoVal :=
  match Loads s with
  | some v => v
  | none =>
    match parseWithFixes s with
    | some v => v
    | none =>
      let t := goTrimSpace s
      match t.data with
      | c :: _ =>
        if c = '{' ∨ c = '[' then
          let e := scanEndAux t.data 0 0 false false 0
          if e > 0 then
            match Loads ⟨t.data.take e⟩ with
            | some v => v
            | none => .vobj []
          else .vobj []
        else .vobj []
      | [] => .vobj []

/-- First non-empty string of a list, or the empty string — the
first-success pattern of the `findPathRecursive` loops. -/
def firstNonempty (l : List String) : String :=
  (l.find? (fun s => !(s == ""))).getD ""

/-- Go `strings.TrimPrefix(path, ".")`. -/
def trimLeadingDot (s : String) : String :=
  match s.data with
  | '.' :: rest => ⟨rest⟩
  | _ => s

/-- The index rendering `string(rune(i + '0'))` used by
`findPathRecursive`: one single character, not the decimal digits. -/
def idxChar (i : Nat) : String := ⟨[Char.ofNat (i + 48)]⟩

/-- The `findPathRecursive` helper from multi_path.go. The Go depth
counter against `maxDepth = 10` is carried as remaining fuel
(`fuel = maxDepth + 1 - currentDepth`): the guard `currentDepth >
maxDepth` is `fuel = 0`. -/
def findPathRecA : Nat → String → String → GoVal → String
  | 0, _, _, _ => ""
  | f + 1, key, cur, v =>
    if hasV v (.vstr key) then cur ++ "." ++ key
    else
      let objRes :=
        match v with
        | .vobj m =>
          firstNonempty ((m.map Prod.fst).map
            (fun k => findPathRecA f key (cur ++ "." ++ k) (getV (.vobj m) (.vstr k))))
        | _ => ""
      if objRes ≠ "" then objRes
      else
        match v with
        | .varr xs =>
          firstNonempty ((List.range xs.length).map
            (fun i => findPathRecA f key (cur ++ "." ++ idxChar i) (getV (.varr xs) (.vint i))))
        | _ => ""

/-- The `FindPath` method: recursive search from depth 0 with cap 10,
then `TrimPrefix` of the leading dot. -/
def findPath (v : GoVal) (key : String) : String :=
  trimLeadingDot (findPathRecA 11 key "" v)

mutual

/-- Side conditions under which a found path is guaranteed to resolve:
no null stored in any container, every mapping key nonempty, dot-free
and not integer-parsable, every sequence of length at most 10. -/
def goodVal : GoVal → Bool
  | .vobj m => goodEntries m
  | .varr xs => decide (xs.length ≤ 10) && goodElems xs
  | _ => true

/-- Entry-wise conditions of `goodVal` on a mapping. -/
def goodEntries : List (String × GoVal) → Bool
  | [] => true
  | (k, c) :: rest =>
    !(k == "") && !(k.data.contains '.') && (goAtoi k).isNone &&
      !(isNullB c) && goodVal c && goodEntries rest

/-- Element-wise conditions of `goodVal` on a sequence. -/
def goodElems : List GoVal → Bool
  | [] => true
  | c :: rest => !(isNullB c) && goodVal c && goodElems rest

end

/-- Spec-side reading of one `Path` segment: an integer-parsing segment
denotes a sequence index, any other segment a mapping key. -/
def segKey (seg : String) : GoVal :=
  match goAtoi seg with
  | some i => .vint i
  | none => .vstr seg

/-! ## Lemmas -/

theorem getV_null (k : GoVal) : getV .vnull k = .vnull := by
  cases k <;> rfl

theorem isNullB_iff (v : GoVal) : isNullB v = true ↔ v = .vnull := by
  cases v <;> simp [isNullB]

theorem qV_null (ks : List GoVal) : qV .vnull ks = .vnull := by
  cases ks with
  | nil => rfl
  | cons k rest => simp [qV, getV_null, isNullB]

theorem qV_append (v : GoVal) (l1 l2 : List GoVal) :
    qV v (l1 ++ l2) = qV (qV v l1) l2 := by
  induction l1 generalizing v with
  | nil => rfl
  | cons k rest ih =>
    simp only [List.cons_append, qV]
    by_cases h : isNullB (getV v k) = true
    · have hv : getV v k = .vnull := (isNullB_iff _).mp h
      simp [h, hv, qV_null]
    · simp [h, ih]

theorem segStep_eq (v : GoVal) (seg : String) : segStep v seg = getV v (segKey seg) := by
  unfold segStep segKey
  cases goAtoi seg <;> rfl

theorem segStep_null (seg : String) : segStep .vnull seg = .vnull := by
  rw [segStep_eq]; exact getV_null _

theorem pathSteps_null (ps : List String) : pathSteps .vnull ps = .vnull := by
  induction ps with
  | nil => rfl
  | cons seg rest ih =>
    by_cases h : seg = ""
    · simp [pathSteps, h, ih]
    · simp [pathSteps, h, segStep_null, isNullB]

theorem pathSteps_append (v : GoVal) (l1 l2 : List String) :
    pathSteps v (l1 ++ l2) = pathSteps (pathSteps v l1) l2 := by
  induction l1 generalizing v with
  | nil => rfl
  | cons seg rest ih =>
    by_cases hs : seg = ""
    · simp only [List.cons_append, pathSteps, if_pos hs]
      exact ih v
    · simp only [List.cons_append, pathSteps, if_neg hs]
      by_cases h : isNullB (segStep v seg) = true
      · have hv : segStep v seg = .vnull := (isNullB_iff _).mp h
        simp [h, hv, pathSteps_null]
      · simp [h, ih]

theorem pathSteps_single (v : GoVal) (seg : String) (h : seg ≠ "") :
    pathSteps v [seg] = segStep v seg := by
  simp [pathSteps, h]

theorem foldl_segKey_null (l : List String) :
    List.foldl (fun c seg => getV c (segKey seg)) .vnull l = .vnull := by
  induction l with
  | nil => rfl
  | cons seg rest ih => simpa [getV_null] using ih

theorem pathSteps_eq_foldl (parts : List String) (v : GoVal) :
    pathSteps v parts =
      List.foldl (fun c seg => getV c (segKey seg)) v
        (parts.filter (fun seg => seg ≠ "")) := by
  induction parts generalizing v with
  | nil => rfl
  | cons seg rest ih =>
    by_cases hs : seg = ""
    · simp [pathSteps, hs, ih]
    · rw [List.filter_cons_of_pos (by simp [hs]), List.foldl_cons, ← segStep_eq]
      simp only [pathSteps, if_neg hs]
      by_cases h : isNullB (segStep v seg) = true
      · rw [if_pos h, (isNullB_iff _).mp h, foldl_segKey_null]
      · rw [if_neg h]
        exact ih _

/-! ## C1 -/

/-- C1 counterexample: the claim says `AsString` on the Null variant
returns the empty string, but the source falls through to
`fmt.Sprintf("%v", nil)`, which renders `<nil>`. -/
theorem null_asString_counterexample :
    asString .vnull = "<nil>" ∧ ("<nil>" : String) ≠ "" := ⟨rfl, by decide⟩

/-- C1 (amended): on the Null variant, `AsString` returns `"<nil>"`
(the Go `%v` rendering of nil), while `AsInt`, `AsFloat`, `AsBool`,
`AsArray` and `AsObject` return the respective zero values. -/
theorem null_coercions_amended :
    asString .vnull = "<nil>" ∧ asInt .vnull = 0 ∧ asFloat .vnull = 0 ∧
      asBool .vnull = false ∧ asArray .vnull = [] ∧ asObject .vnull = [] :=
  ⟨rfl, rfl, rfl, rfl, rfl, rfl⟩

/-! ## C2 -/

/-- C2: `Get`, `Q` and `Path` are total functions, and every miss — a
mapping key that is absent, an out-of-range sequence index, a key of the
wrong kind for the variant, a non-container receiver, or any such miss at
an intermediate step of a `Q` chain or `Path` walk — yields the Null
variant. -/
theorem navigation_null_on_miss :
    (∀ m s, lookupA m s = none → getV (.vobj m) (.vstr s) = .vnull) ∧
    (∀ xs (i : Int), (i < 0 ∨ (xs.length : Int) ≤ i) → getV (.varr xs) (.vint i) = .vnull) ∧
    (∀ m k, (∀ s, k ≠ .vstr s) → getV (.vobj m) k = .vnull) ∧
    (∀ xs k, (∀ i, k ≠ .vint i) → getV (.varr xs) k = .vnull) ∧
    (∀ v k, (∀ m, v ≠ .vobj m) → (∀ xs, v ≠ .varr xs) → getV v k = .vnull) ∧
    (∀ v pre k post, getV (qV v pre) k = .vnull → qV v (pre ++ k :: post) = .vnull) ∧
    (∀ v pre seg post, seg ≠ "" → segStep (pathSteps v pre) seg = .vnull →
      pathSteps v (pre ++ seg :: post) = .vnull) := by
  refine ⟨?_, ?_, ?_, ?_, ?_, ?_, ?_⟩
  · intro m s h
    simp [getV, h]
  · intro xs i h
    rcases h with h | h
    · simp [getV, h]
    · have h0 : ¬ i < 0 := by omega
      have hlen : xs.length ≤ i.toNat := by omega
      simp only [getV, if_neg h0]
      rw [List.getD_eq_default _ _ hlen]
  · intro m k h
    cases k with
    | vstr s => exact absurd rfl (h s)
    | vnull => rfl
    | vbool b => rfl
    | vint n => rfl
    | vfloat q => rfl
    | varr xs => rfl
    | vobj m2 => rfl
  · intro xs k h
    cases k with
    | vint i => exact absurd rfl (h i)
    | vnull => rfl
    | vbool b => rfl
    | vfloat q => rfl
    | vstr s => rfl
    | varr ys => rfl
    | vobj m2 => rfl
  · intro v k h1 h2
    cases v with
    | vobj m => exact absurd rfl (h1 m)
    | varr xs => exact absurd rfl (h2 xs)
    | vnull => exact getV_null k
    | vbool b => cases k <;> rfl
    | vint n => cases k <;> rfl
    | vfloat q => cases k <;> rfl
    | vstr s => cases k <;> rfl
  · intro v pre k post h
    rw [qV_append]
    simp [qV, h, isNullB]
  · intro v pre seg post hseg h
    rw [pathSteps_append]
    simp [pathSteps, hseg, h, isNullB]

/-- Closed witness for C2 at concrete inputs. -/
theorem navigation_null_on_miss_witness :
    getV (.vobj [("a", .vbool true)]) (.vstr "b") = .vnull ∧
    getV (.varr [.vbool true]) (.vint 5) = .vnull ∧
    getV (.vobj [("a", .vbool true)]) (.vint 0) = .vnull ∧
    getV (.varr [.vbool true]) (.vstr "a") = .vnull ∧
    getV (.vstr "s") (.vstr "a") = .vnull ∧
    qV (.vobj [("a", .vbool true)]) [.vstr "b", .vstr "c"] = .vnull ∧
    pathSteps (.vobj [("a", .vbool true)]) ["b", "c"] = .vnull :=
  ⟨navigation_null_on_miss.1 _ "b" rfl,
   navigation_null_on_miss.2.1 [.vbool true] 5 (Or.inr (by decide)),
   navigation_null_on_miss.2.2.1 _ (.vint 0) (fun s h => GoVal.noConfusion h),
   navigation_null_on_miss.2.2.2.1 _ (.vstr "a") (fun i h => GoVal.noConfusion h),
   navigation_null_on_miss.2.2.2.2.1 (.vstr "s") (.vstr "a")
     (fun m h => GoVal.noConfusion h) (fun xs h => GoVal.noConfusion h),
   navigation_null_on_miss.2.2.2.2.2.1 _ [] (.vstr "b") [.vstr "c"] rfl,
   navigation_null_on_miss.2.2.2.2.2.2 _ [] "b" ["c"] (by decide) rfl⟩

/-! ## C3 -/

/-- C3 counterexample: a mapping with key `"0"` is not reachable via the
path segment `"0"` — the segment parses as an integer, is used only as a
sequence index, and is never retried as a mapping key, so `Path` yields
Null even though `Get` with the string key finds the value. -/
theorem path_integer_segment_counterexample :
    pathV (.vobj [("0", .vstr "x")]) "0" = .vnull ∧
    getV (.vobj [("0", .vstr "x")]) (.vstr "0") = .vstr "x" := ⟨rfl, rfl⟩

/-- C3 (amended): `Path` splits on `'.'`, skips empty segments, and walks
via exactly one lookup per segment — a segment that parses as an integer
is used only as a sequence index, every other segment only as a mapping
key — stopping at the first miss (a null intermediate absorbs the rest of
the walk). Moreover an integer-parsing segment applied to a mapping
always misses: it is not retried as a mapping key. -/
theorem path_segment_semantics_amended :
    (∀ v s, pathV v s =
      List.foldl (fun c seg => getV c (segKey seg)) v
        ((goSplitDot s).filter (fun seg => seg ≠ ""))) ∧
    (∀ m (seg : String) (i : Int), goAtoi seg = some i → segStep (.vobj m) seg = .vnull) := by
  constructor
  · intro v s
    exact pathSteps_eq_foldl _ v
  · intro m seg i h
    unfold segStep
    rw [h]
    rfl

/-- Closed witness for C3 at concrete inputs. -/
theorem path_segment_semantics_amended_witness :
    segStep (.vobj [("0", .vstr "x")]) "0" = .vnull ∧
    pathV (.vobj [("a", .vobj [("b", .vbool true)])]) "a.b" =
      List.foldl (fun c seg => getV c (segKey seg))
        (.vobj [("a", .vobj [("b", .vbool true)])])
        ((goSplitDot "a.b").filter (fun seg => seg ≠ "")) :=
  ⟨path_segment_semantics_amended.2 _ "0" 0 rfl,
   path_segment_semantics_amended.1 _ "a.b"⟩

/-! ## C4 -/

/-- C4 counterexample: with a single argument whose type matches the
return type, the getter does not treat it as the default — the remaining
path would be empty and resolve to the Null root, so under the claim
`GetString` would return `"def"`, but the source only applies the
default rule when more than one argument is present and returns the zero
string. -/
theorem smart_getter_single_arg_counterexample :
    getString .vnull [.vstr "def"] = "" ∧ qV .vnull ([] : List GoVal) = .vnull ∧
      ("" : String) ≠ "def" :=
  ⟨rfl, rfl, by decide⟩

/-- C4 (amended): for `GetString`/`GetInt`/`GetBool`/`GetFloat`, the
trailing argument is treated as the default and excluded from the path
exactly when there are at least two arguments and its type matches the
return type; in every other case — including a single argument of the
matching type — the full argument list is the path and the zero value is
the default. -/
theorem smart_getter_default_rule_amended :
    (∀ v ks d, ks ≠ [] → getString v (ks ++ [.vstr d]) =
      if isNullB (qV v ks) then d else asString (qV v ks)) ∧
    (∀ v ks, (∀ d, ks.getLast? ≠ some (.vstr d)) → getString v ks =
      if isNullB (qV v ks) then "" else asString (qV v ks)) ∧
    (∀ v d, getString v [.vstr d] =
      if isNullB (qV v [.vstr d]) then "" else asString (qV v [.vstr d])) ∧
    (∀ v ks d, ks ≠ [] → getInt v (ks ++ [.vint d]) =
      if isNullB (qV v ks) then d else asInt (qV v ks)) ∧
    (∀ v ks, (∀ d, ks.getLast? ≠ some (.vint d)) → getInt v ks =
      if isNullB (qV v ks) then 0 else asInt (qV v ks)) ∧
    (∀ v d, getInt v [.vint d] =
      if isNullB (qV v [.vint d]) then 0 else asInt (qV v [.vint d])) ∧
    (∀ v ks d, ks ≠ [] → getBool v (ks ++ [.vbool d]) =
      if isNullB (qV v ks) then d else asBool (qV v ks)) ∧
    (∀ v ks, (∀ d, ks.getLast? ≠ some (.vbool d)) → getBool v ks =
      if isNullB (qV v ks) then false else asBool (qV v ks)) ∧
    (∀ v d, getBool v [.vbool d] =
      if isNullB (qV v [.vbool d]) then false else asBool (qV v [.vbool d])) ∧
    (∀ v ks d, ks ≠ [] → getFloat v (ks ++ [.vfloat d]) =
      if isNullB (qV v ks) then d else asFloat (qV v ks)) ∧
    (∀ v ks, (∀ d, ks.getLast? ≠ some (.vfloat d)) → getFloat v ks =
      if isNullB (qV v ks) then 0 else asFloat (qV v ks)) ∧
    (∀ v d, getFloat v [.vfloat d] =
      if isNullB (qV v [.vfloat d]) then 0 else asFloat (qV v [.vfloat d])) := by
  refine ⟨?_, ?_, ?_, ?_, ?_, ?_, ?_, ?_, ?_, ?_, ?_, ?_⟩
  case _ => intro v ks d h
            have h1 : (ks ++ [GoVal.vstr d]).length > 1 := by
              cases ks with
              | nil => exact absurd rfl h
              | cons a t => simp
            have hp : 0 < ks.length := List.length_pos.mpr h
            simp [getString, if_pos h1, List.getLast?_concat, List.dropLast_concat, hp]
  case _ => intro v ks h
            by_cases hl : ks.length > 1
            · simp only [getString, if_pos hl]
            · simp [getString, hl]
  case _ => intro v d
            simp [getString]
  case _ => intro v ks d h
            have h1 : (ks ++ [GoVal.vint d]).length > 1 := by
              cases ks with
              | nil => exact absurd rfl h
              | cons a t => simp
            have hp : 0 < ks.length := List.length_pos.mpr h
            simp [getInt, if_pos h1, List.getLast?_concat, List.dropLast_concat, hp]
  case _ => intro v ks h
            by_cases hl : ks.length > 1
            · simp only [getInt, if_pos hl]
            · simp [getInt, hl]
  case _ => intro v d
            simp [getInt]
  case _ => intro v ks d h
            have h1 : (ks ++ [GoVal.vbool d]).length > 1 := by
              cases ks with
              | nil => exact absurd rfl h
              | cons a t => simp
            have hp : 0 < ks.length := List.length_pos.mpr h
            simp [getBool, if_pos h1, List.getLast?_concat, List.dropLast_concat, hp]
  case _ => intro v ks h
            by_cases hl : ks.length > 1
            · simp only [getBool, if_pos hl]
            · simp [getBool, hl]
  case _ => intro v d
            simp [getBool]
  case _ => intro v ks d h
            have h1 : (ks ++ [GoVal.vfloat d]).length > 1 := by
              cases ks with
              | nil => exact absurd rfl h
              | cons a t => simp
            have hp : 0 < ks.length := List.length_pos.mpr h
            simp [getFloat, if_pos h1, List.getLast?_concat, List.dropLast_concat, hp]
  case _ => intro v ks h
            by_cases hl : ks.length > 1
            · simp only [getFloat, if_pos hl]
            · simp [getFloat, hl]
  case _ => intro v d
            simp [getFloat]

/-- Closed witness for C4 at concrete inputs. -/
theorem smart_getter_default_rule_amended_witness :
    getString (.vobj [("name", .vstr "John")]) ([.vstr "name"] ++ [.vstr "Default"]) =
      (if isNullB (qV (.vobj [("name", .vstr "John")]) [.vstr "name"]) then "Default"
       else asString (qV (.vobj [("name", .vstr "John")]) [.vstr "name"])) ∧
    getInt (.vobj [("age", .vint 30)]) [.vstr "age"] =
      (if isNullB (qV (.vobj [("age", .vint 30)]) [.vstr "age"]) then 0
       else asInt (qV (.vobj [("age", .vint 30)]) [.vstr "age"])) ∧
    getBool .vnull [.vbool true] =
      (if isNullB (qV .vnull [.vbool true]) then false
       else asBool (qV .vnull [.vbool true])) :=
  ⟨smart_getter_default_rule_amended.1 _ [.vstr "name"] "Default" (by simp),
   smart_getter_default_rule_amended.2.2.2.2.1 _ [.vstr "age"]
     (fun d h => by simp at h),
   smart_getter_default_rule_amended.2.2.2.2.2.2.2.2.1 _ true⟩

/-! ## C5 -/

/-- C5 counterexample: on a non-Sequence receiver, `ReduceArray` returns
the initial accumulator (not an empty Sequence) and `FindInArray`
returns the Null variant (not an empty Sequence). -/
theorem reduce_find_non_sequence_counterexample :
    reduceArray (.vstr "x") (.vint 42) (fun a _ => a) = .vint 42 ∧
    GoVal.vint 42 ≠ .varr [] ∧
    findInArray (.vstr "x") (fun _ => true) = .vnull ∧
    GoVal.vnull ≠ .varr [] :=
  ⟨rfl, fun h => GoVal.noConfusion h, rfl, fun h => GoVal.noConfusion h⟩

/-- C5 (amended): on a non-Sequence receiver, `FilterArray`, `MapArray`,
`SortBy`, `Unique`, `Take` and `Skip` return an empty Sequence;
`ReduceArray` returns the initial accumulator unchanged; `FindInArray`
and `FindByField` return the Null variant; `GroupBy` returns an empty
mapping. -/
theorem combinators_non_sequence_amended :
    ∀ v, isArrB v = false →
      (∀ p, (filterArrayS v p).1 = .varr []) ∧
      (∀ f, (mapArrayS v f).1 = .varr []) ∧
      (∀ fld, sortByGo v fld = .varr []) ∧
      uniqueGo v = .varr [] ∧
      (∀ n, takeGo v n = .varr []) ∧
      (∀ n, skipGo v n = .varr []) ∧
      (∀ init f, reduceArray v init f = init) ∧
      (∀ p, findInArray v p = .vnull) ∧
      (∀ fld val, findByField v fld val = .vnull) ∧
      (∀ fld, groupByGo v fld = fun _ => []) := by
  intro v h
  cases v with
  | varr xs => simp [isArrB] at h
  | vnull =>
    exact ⟨fun _ => rfl, fun _ => rfl, fun _ => rfl, rfl, fun _ => rfl, fun _ => rfl,
      fun _ _ => rfl, fun _ => rfl, fun _ _ => rfl, fun _ => rfl⟩
  | vbool b =>
    exact ⟨fun _ => rfl, fun _ => rfl, fun _ => rfl, rfl, fun _ => rfl, fun _ => rfl,
      fun _ _ => rfl, fun _ => rfl, fun _ _ => rfl, fun _ => rfl⟩
  | vint n =>
    exact ⟨fun _ => rfl, fun _ => rfl, fun _ => rfl, rfl, fun _ => rfl, fun _ => rfl,
      fun _ _ => rfl, fun _ => rfl, fun _ _ => rfl, fun _ => rfl⟩
  | vfloat q =>
    exact ⟨fun _ => rfl, fun _ => rfl, fun _ => rfl, rfl, fun _ => rfl, fun _ => rfl,
      fun _ _ => rfl, fun _ => rfl, fun _ _ => rfl, fun _ => rfl⟩
  | vstr s =>
    exact ⟨fun _ => rfl, fun _ => rfl, fun _ => rfl, rfl, fun _ => rfl, fun _ => rfl,
      fun _ _ => rfl, fun _ => rfl, fun _ _ => rfl, fun _ => rfl⟩
  | vobj m =>
    exact ⟨fun _ => rfl, fun _ => rfl, fun _ => rfl, rfl, fun _ => rfl, fun _ => rfl,
      fun _ _ => rfl, fun _ => rfl, fun _ _ => rfl, fun _ => rfl⟩

/-- Closed witness for C5 at concrete inputs. -/
theorem combinators_non_sequence_amended_witness :
    (filterArrayS (.vstr "x") (fun _ => true)).1 = .varr [] ∧
    sortByGo (.vstr "x") "name" = .varr [] ∧
    reduceArray (.vstr "x") (.vint 7) (fun a _ => a) = .vint 7 ∧
    findByField (.vstr "x") "id" (.vint 1) = .vnull ∧
    groupByGo (.vstr "x") "role" = fun _ => [] :=
  ⟨(combinators_non_sequence_amended (.vstr "x") rfl).1 _,
   (combinators_non_sequence_amended (.vstr "x") rfl).2.2.1 _,
   (combinators_non_sequence_amended (.vstr "x") rfl).2.2.2.2.2.2.1 _ _,
   (combinators_non_sequence_amended (.vstr "x") rfl).2.2.2.2.2.2.2.2.1 _ _,
   (combinators_non_sequence_amended (.vstr "x") rfl).2.2.2.2.2.2.2.2.2 _⟩

/-! ## C7 -/

theorem groupBy_fold (xs : List GoVal) (fld : String) (g : String → List GoVal) (k : String) :
    (xs.foldl
      (fun g item => fun k' =>
        if k' = groupKeyOf item fld then g k' ++ [item] else g k') g) k
      = g k ++ xs.filter (fun it => groupKeyOf it fld == k) := by
  induction xs generalizing g with
  | nil => simp
  | cons it rest ih =>
    rw [List.foldl_cons, ih, List.filter_cons]
    by_cases hk : k = groupKeyOf it fld
    · simp [hk, List.append_assoc]
    · have hne : (groupKeyOf it fld == k) = false := by
        simp only [beq_eq_false_iff_ne, ne_eq]
        exact fun he => hk he.symm
      simp [hk, hne]

/-- C7: `GroupBy` buckets the items of a Sequence by the smart string
coercion (`GetString`) of each item's field; each bucket is the
order-preserving sublist of items whose key coerces to that bucket's key,
an item missing the field lands in the `""` bucket, and the spec's
role-grouping example produces buckets of sizes 2 and 1. -/
theorem groupBy_buckets :
    (∀ xs fld k, groupByGo (.varr xs) fld k =
      xs.filter (fun it => groupKeyOf it fld == k)) ∧
    (∀ xs fld it, it ∈ xs → getV it (.vstr fld) = .vnull →
      it ∈ groupByGo (.varr xs) fld "") ∧
    (groupByGo (.varr [.vobj [("role", .vstr "admin")], .vobj [("role", .vstr "user")],
        .vobj [("role", .vstr "admin")]]) "role" "admin").length = 2 ∧
    (groupByGo (.varr [.vobj [("role", .vstr "admin")], .vobj [("role", .vstr "user")],
        .vobj [("role", .vstr "admin")]]) "role" "user").length = 1 := by
  have hbucket : ∀ xs fld k, groupByGo (.varr xs) fld k =
      xs.filter (fun it => groupKeyOf it fld == k) := by
    intro xs fld k
    have := groupBy_fold xs fld (fun _ => []) k
    simpa [groupByGo] using this
  refine ⟨hbucket, ?_, rfl, rfl⟩
  intro xs fld it hmem hnull
  have hkey : groupKeyOf it fld = "" := by
    simp [groupKeyOf, getString, qV, hnull, isNullB]
  rw [hbucket]
  exact List.mem_filter.mpr ⟨hmem, by simp [hkey]⟩

/-- Closed witness for C7 at concrete inputs. -/
theorem groupBy_buckets_witness :
    GoVal.vobj [("name", .vstr "n")] ∈
      groupByGo (.varr [.vobj [("name", .vstr "n")]]) "role" "" :=
  groupBy_buckets.2.1 _ "role" _ (by simp) rfl

/-! ## C8 -/

/-- C8: `FilterArray` keeps exactly the items passing the predicate in
their original order (an order-preserving sublist), `MapArray` transforms
the items position-wise preserving length and order, and both are
non-mutating — the receiver's data after the call is unchanged. -/
theorem filter_map_order_preserving_non_mutating :
    (∀ xs p, (filterArrayS (.varr xs) p).1 = .varr (xs.filter p)) ∧
    (∀ (xs : List GoVal) (p : GoVal → Bool), List.Sublist (xs.filter p) xs) ∧
    (∀ xs f, (mapArrayS (.varr xs) f).1 = .varr (xs.map f)) ∧
    (∀ (xs : List GoVal) (f : GoVal → GoVal), (xs.map f).length = xs.length) ∧
    (∀ v p, (filterArrayS v p).2 = v) ∧
    (∀ v f, (mapArrayS v f).2 = v) :=
  ⟨fun _ _ => rfl, fun xs p => List.filter_sublist xs, fun _ _ => rfl,
   fun xs f => by simp, fun _ _ => rfl, fun _ _ => rfl⟩

/-! ## C9 -/

/-- C9: whenever `Set` or `Delete` returns an error — non-container
receiver, key of the wrong kind for the variant, or out-of-range
sequence index — the receiver's data is left completely unchanged. -/
theorem set_delete_error_frame :
    (∀ v k val, (setV v k val).1.isSome = true → (setV v k val).2 = v) ∧
    (∀ v k, (deleteV v k).1.isSome = true → (deleteV v k).2 = v) := by
  constructor
  · intro v k val h
    cases v with
    | vobj m => cases k <;> simp [setV] at h ⊢
    | varr xs =>
      cases k with
      | vint i =>
        by_cases hc : 0 ≤ i ∧ i < (xs.length : Int)
        · simp [setV, hc] at h
        · simp [setV, hc]
      | vnull => rfl
      | vbool b => rfl
      | vfloat q => rfl
      | vstr s => rfl
      | varr ys => rfl
      | vobj m2 => rfl
    | vnull => rfl
    | vbool b => rfl
    | vint n => rfl
    | vfloat q => rfl
    | vstr s => rfl
  · intro v k h
    cases v with
    | vobj m => cases k <;> simp [deleteV] at h ⊢
    | varr xs =>
      cases k with
      | vint i =>
        by_cases hc : 0 ≤ i ∧ i < (xs.length : Int)
        · simp [deleteV, hc] at h
        · simp [deleteV, hc]
      | vnull => rfl
      | vbool b => rfl
      | vfloat q => rfl
      | vstr s => rfl
      | varr ys => rfl
      | vobj m2 => rfl
    | vnull => rfl
    | vbool b => rfl
    | vint n => rfl
    | vfloat q => rfl
    | vstr s => rfl

/-! ## C6 -/

/-- C6 counterexample: `FixCommonIssues` uses plain textual
`strings.ReplaceAll`, so an occurrence of `None` inside a string literal
is rewritten too — the claim that only bareword tokens are repaired and
string-literal occurrences are left untouched is false. -/
theorem fix_replaces_in_string_literal_counterexample :
    fixCommonIssues "\x7b\"x\": \"None\"\x7d" = "\x7b\"x\": \"null\"\x7d" ∧
    ("\x7b\"x\": \"null\"\x7d" : String) ≠ "\x7b\"x\": \"None\"\x7d" :=
  ⟨rfl, by decide⟩

/-- C6 (amended): `ParseLenient` returns the strict parse when it
succeeds; otherwise its second strategy replaces every textual
occurrence of `True`/`False`/`None` — including occurrences inside
string literals and inside longer tokens — with `true`/`false`/`null`,
replaces all single quotes with double quotes only when the repaired
text contains no double quote but does contain a single quote, and
retries strict parsing. The spec's example still parses to the expected
value. -/
theorem lenient_repair_amended :
    (∀ s v, Loads s = some v → parseLenient s = v) ∧
    (∀ s, goContains (replaceTFN s) "\"" = true →
      fixCommonIssues s = replaceTFN s) ∧
    (∀ s, goContains (replaceTFN s) "\"" = false → goContains (replaceTFN s) "'" = true →
      fixCommonIssues s = goReplaceAll (replaceTFN s) "'" "\"") ∧
    (∀ s, goContains (replaceTFN s) "\"" = false → goContains (replaceTFN s) "'" = false →
      fixCommonIssues s = replaceTFN s) ∧
    parseLenient "\x7b\"ok\": True, \"val\": None\x7d" =
      .vobj [("ok", .vbool true), ("val", .vnull)] := by
  refine ⟨?_, ?_, ?_, ?_, rfl⟩
  · intro s v h
    simp [parseLenient, h]
  · intro s h
    simp [fixCommonIssues, h]
  · intro s h1 h2
    simp [fixCommonIssues, h1, h2]
  · intro s h1 h2
    simp [fixCommonIssues, h1, h2]

/-- Closed witness for C6 at concrete inputs. -/
theorem lenient_repair_amended_witness :
    parseLenient "[]" = .varr [] ∧
    fixCommonIssues "\x7b\"a\": None\x7d" = replaceTFN "\x7b\"a\": None\x7d" ∧
    fixCommonIssues "\x7b'ok': True\x7d" =
      goReplaceAll (replaceTFN "\x7b'ok': True\x7d") "'" "\"" ∧
    fixCommonIssues "x" = replaceTFN "x" :=
  ⟨lenient_repair_amended.1 "[]" (.varr []) rfl,
   lenient_repair_amended.2.1 _ rfl,
   lenient_repair_amended.2.2.1 _ rfl rfl,
   lenient_repair_amended.2.2.2.1 _ rfl rfl⟩

/-- Closed witness for C9 at concrete inputs. -/
theorem set_delete_error_frame_witness :
    (setV (.vstr "x") (.vstr "k") .vnull).2 = .vstr "x" ∧
    (setV (.varr [.vbool true]) (.vint 7) .vnull).2 = .varr [.vbool true] ∧
    (deleteV (.vobj [("a", .vbool true)]) (.vint 0)).2 = .vobj [("a", .vbool true)] :=
  ⟨set_delete_error_frame.1 _ _ _ rfl,
   set_delete_error_frame.1 _ _ _ rfl,
   set_delete_error_frame.2 _ _ rfl⟩

/-! ## C10 support -/

theorem strEta (s : String) : (⟨s.data⟩ : String) = s := by cases s; rfl

theorem splitDotP_append (a b : List Char) :
    splitDotP (a ++ '.' :: b) =
      ((splitDotP a).1, (splitDotP a).2 ++ splitDotL b) := by
  induction a with
  | nil => simp [splitDotP, splitDotL]
  | cons c cs ih =>
    by_cases hc : c = '.'
    · simp [splitDotP, hc, ih]
    · simp [splitDotP, hc, ih]

theorem splitDotL_append (a b : List Char) :
    splitDotL (a ++ '.' :: b) = splitDotL a ++ splitDotL b := by
  simp [splitDotL, splitDotP_append]

theorem splitDotP_no_dot (l : List Char) (h : l.contains '.' = false) :
    splitDotP l = (l, []) := by
  induction l with
  | nil => rfl
  | cons c cs ih =>
    simp only [List.contains_cons, Bool.or_eq_false_iff, beq_eq_false_iff_ne] at h
    have hc : ¬ c = '.' := fun he => h.1 (by simp [he])
    simp [splitDotP, hc, ih h.2]

theorem splitDotL_no_dot (l : List Char) (h : l.contains '.' = false) :
    splitDotL l = [l] := by
  simp [splitDotL, splitDotP_no_dot l h]

theorem goSplitDot_append (a k : String) (hk : k.data.contains '.' = false) :
    goSplitDot (a ++ "." ++ k) = goSplitDot a ++ [k] := by
  have hdata : (a ++ "." ++ k).data = a.data ++ '.' :: k.data := by
    rw [show (a ++ "." ++ k).data = (a.data ++ ['.']) ++ k.data from rfl,
      List.append_assoc]
    rfl
  simp [goSplitDot, hdata, splitDotL_append, splitDotL_no_dot _ hk, strEta]

theorem goSplitDot_dot_cons (rest : List Char) :
    goSplitDot ⟨'.' :: rest⟩ = "" :: goSplitDot ⟨rest⟩ := by
  simp [goSplitDot, splitDotL, splitDotP]

theorem pathV_trimLeadingDot (v : GoVal) (s : String) :
    pathV v (trimLeadingDot s) = pathV v s := by
  cases s with
  | mk l =>
    cases l with
    | nil => rfl
    | cons c rest =>
      by_cases hc : c = '.'
      · subst hc
        show pathV v ⟨rest⟩ = pathV v ⟨'.' :: rest⟩
        rw [pathV, pathV, goSplitDot_dot_cons]
        simp [pathSteps]
      · show pathV v _ = _
        simp [trimLeadingDot, hc]

theorem isNullB_false_iff (v : GoVal) : isNullB v = false ↔ v ≠ .vnull := by
  cases v <;> simp [isNullB]

theorem lookupA_mem {m : List (String × GoVal)} {s : String} {c : GoVal}
    (h : lookupA m s = some c) : (s, c) ∈ m := by
  induction m with
  | nil => exact absurd h (by simp [lookupA])
  | cons e rest ih =>
    obtain ⟨k, v⟩ := e
    by_cases hk : k = s
    · subst hk
      have hv : v = c := by simpa [lookupA] using h
      subst hv
      exact List.mem_cons_self _ _
    · have h2 : lookupA rest s = some c := by simpa [lookupA, hk] using h
      exact List.mem_cons_of_mem _ (ih h2)

theorem lookupA_of_mem_keys {m : List (String × GoVal)} {k : String}
    (h : k ∈ m.map Prod.fst) : ∃ c, lookupA m k = some c ∧ (k, c) ∈ m := by
  induction m with
  | nil => simp at h
  | cons e rest ih =>
    obtain ⟨k', v'⟩ := e
    by_cases hk : k' = k
    · subst hk
      exact ⟨v', by simp [lookupA], List.mem_cons_self _ _⟩
    · simp only [List.map_cons, List.mem_cons] at h
      rcases h with h | h
      · exact absurd h.symm hk
      · obtain ⟨c, hc, hmem⟩ := ih h
        exact ⟨c, by simp [lookupA, hk, hc], List.mem_cons_of_mem _ hmem⟩

theorem goodEntries_mem {m : List (String × GoVal)} {k : String} {c : GoVal}
    (hg : goodEntries m = true) (hmem : (k, c) ∈ m) :
    k ≠ "" ∧ k.data.contains '.' = false ∧ goAtoi k = none ∧
      c ≠ .vnull ∧ goodVal c = true := by
  induction m with
  | nil => simp at hmem
  | cons e rest ih =>
    obtain ⟨k', c'⟩ := e
    simp only [goodEntries, Bool.and_eq_true, Bool.not_eq_true',
      beq_eq_false_iff_ne, Option.isNone_iff_eq_none, isNullB_false_iff] at hg
    rcases List.mem_cons.mp hmem with h | h
    · obtain ⟨hk, hc⟩ := Prod.mk.inj h
      subst hk
      subst hc
      refine ⟨?_, ?_, ?_, ?_, ?_⟩ <;> tauto
    · refine ih ?_ h
      tauto

theorem goodElems_mem {xs : List GoVal} {c : GoVal}
    (hg : goodElems xs = true) (hmem : c ∈ xs) :
    c ≠ .vnull ∧ goodVal c = true := by
  induction xs with
  | nil => simp at hmem
  | cons x rest ih =>
    simp only [goodElems, Bool.and_eq_true, Bool.not_eq_true', isNullB_false_iff] at hg
    rcases List.mem_cons.mp hmem with h | h
    · subst h
      tauto
    · refine ih ?_ h
      tauto

theorem firstNonempty_spec {l : List String} (h : firstNonempty l ≠ "") :
    ∃ x ∈ l, firstNonempty l = x ∧ x ≠ "" := by
  unfold firstNonempty at h ⊢
  cases hf : l.find? (fun s => !(s == "")) with
  | none => rw [hf] at h; exact absurd rfl h
  | some x =>
    have hmem := List.mem_of_find?_eq_some hf
    have hpred := List.find?_some hf
    exact ⟨x, hmem, rfl, by simpa using hpred⟩

theorem idxChar_facts (i : Nat) (h : i ≤ 9) :
    idxChar i ≠ "" ∧ (idxChar i).data.contains '.' = false ∧
      goAtoi (idxChar i) = some ((i : Nat) : Int) := by
  interval_cases i <;> exact ⟨by decide, by decide, by decide⟩

theorem getV_arr_get (xs : List GoVal) (i : Nat) :
    getV (.varr xs) (.vint i) = xs.getD i .vnull := by
  have h0 : ¬ ((i : Int) < 0) := by omega
  simp [getV, h0]

theorem hasV_vstr_cases (v : GoVal) (key : String) (h : hasV v (.vstr key) = true) :
    ∃ m, v = .vobj m ∧ (lookupA m key).isSome = true := by
  cases v <;> simp [hasV] at h ⊢
  exact h

theorem ite_ne_self_right (s : String) : (if s ≠ "" then s else "") = s := by
  by_cases h : s = "" <;> simp [h]

theorem findPathRecA_sound (key : String) :
    ∀ (fuel : Nat) (cur : String) (v root : GoVal),
      goodVal v = true →
      pathSteps root (goSplitDot cur) = v →
      findPathRecA fuel key cur v ≠ "" →
      pathSteps root (goSplitDot (findPathRecA fuel key cur v)) ≠ .vnull := by
  intro fuel
  induction fuel with
  | zero => intro cur v root _ _ hne; exact absurd rfl hne
  | succ f ih =>
    intro cur v root hgood hinv hne
    by_cases hh : hasV v (.vstr key) = true
    · obtain ⟨m, rfl, hsome⟩ := hasV_vstr_cases v key hh
      obtain ⟨c, hc⟩ := Option.isSome_iff_exists.mp hsome
      have hmem := lookupA_mem hc
      have hgE : goodEntries m = true := by simpa [goodVal] using hgood
      obtain ⟨hk1, hk2, hk3, hc1, _⟩ := goodEntries_mem hgE hmem
      have hres : findPathRecA (f + 1) key cur (.vobj m) = cur ++ "." ++ key := by
        simp [findPathRecA, hh]
      rw [hres, goSplitDot_append _ _ hk2, pathSteps_append, hinv,
        pathSteps_single _ _ hk1]
      have hseg : segStep (.vobj m) key = getV (.vobj m) (.vstr key) := by
        unfold segStep
        rw [hk3]
      have hget : getV (.vobj m) (.vstr key) = c := by simp [getV, hc]
      rw [hseg, hget]
      exact hc1
    · cases v with
      | vobj m =>
        have hform : findPathRecA (f + 1) key cur (.vobj m) =
            firstNonempty ((m.map Prod.fst).map
              (fun k => findPathRecA f key (cur ++ "." ++ k)
                (getV (.vobj m) (.vstr k)))) := by
          simp only [findPathRecA, if_neg hh]
          rw [ite_ne_self_right]
        rw [hform] at hne ⊢
        obtain ⟨x, hx, heq, hxne⟩ := firstNonempty_spec hne
        rw [heq]
        obtain ⟨k, hkmem, hxk⟩ := List.mem_map.mp hx
        obtain ⟨c, hc, hmemkc⟩ := lookupA_of_mem_keys hkmem
        have hgE : goodEntries m = true := by simpa [goodVal] using hgood
        obtain ⟨hk1, hk2, hk3, hc1, hcGood⟩ := goodEntries_mem hgE hmemkc
        have hget : getV (.vobj m) (.vstr k) = c := by simp [getV, hc]
        have hinv2 : pathSteps root (goSplitDot (cur ++ "." ++ k)) = c := by
          rw [goSplitDot_append _ _ hk2, pathSteps_append, hinv,
            pathSteps_single _ _ hk1]
          have hseg : segStep (.vobj m) k = getV (.vobj m) (.vstr k) := by
            unfold segStep
            rw [hk3]
          rw [hseg, hget]
        rw [hget] at hxk
        rw [← hxk] at hxne ⊢
        exact ih (cur ++ "." ++ k) c root hcGood hinv2 hxne
      | varr xs =>
        have hform : findPathRecA (f + 1) key cur (.varr xs) =
            firstNonempty ((List.range xs.length).map
              (fun i => findPathRecA f key (cur ++ "." ++ idxChar i)
                (getV (.varr xs) (.vint i)))) := by
          simp [findPathRecA, hh]
        rw [hform] at hne ⊢
        obtain ⟨x, hx, heq, hxne⟩ := firstNonempty_spec hne
        rw [heq]
        obtain ⟨i, hiRange, hxi⟩ := List.mem_map.mp hx
        have hilt : i < xs.length := List.mem_range.mp hiRange
        have hgA : xs.length ≤ 10 ∧ goodElems xs = true := by
          simpa [goodVal, Bool.and_eq_true] using hgood
        have hi9 : i ≤ 9 := by omega
        obtain ⟨hd1, hd2, hd3⟩ := idxChar_facts i hi9
        have hget : getV (.varr xs) (.vint i) = xs.get ⟨i, hilt⟩ := by
          rw [getV_arr_get, List.getD_eq_getElem]
          · rfl

        have hmemc : xs.get ⟨i, hilt⟩ ∈ xs := List.get_mem xs i hilt
        obtain ⟨hc1, hcGood⟩ := goodElems_mem hgA.2 hmemc
        have hinv2 : pathSteps root (goSplitDot (cur ++ "." ++ idxChar i)) =
            xs.get ⟨i, hilt⟩ := by
          rw [goSplitDot_append _ _ hd2, pathSteps_append, hinv,
            pathSteps_single _ _ hd1]
          have hseg : segStep (.varr xs) (idxChar i) = getV (.varr xs) (.vint i) := by
            unfold segStep
            rw [hd3]
          rw [hseg, hget]
        rw [hget] at hxi
        rw [← hxi] at hxne ⊢
        exact ih (cur ++ "." ++ idxChar i) (xs.get ⟨i, hilt⟩) root hcGood hinv2 hxne
      | vnull => simp [findPathRecA, hh] at hne
      | vbool b => simp [findPathRecA, hh] at hne
      | vint n => simp [findPathRecA, hh] at hne
      | vfloat q => simp [findPathRecA, hh] at hne
      | vstr s => simp [findPathRecA, hh] at hne

/-! ## C10 -/

/-- C10 counterexample: `FindPath` reports a non-empty path as soon as
`Has` finds the key, even when the stored value is null — resolving the
returned path with `Path` then yields the Null variant. -/
theorem findPath_null_value_counterexample :
    findPath (.vobj [("a", .vnull)]) "a" = "a" ∧
    ("a" : String) ≠ "" ∧
    pathV (.vobj [("a", .vnull)]) "a" = .vnull :=
  ⟨rfl, by decide, rfl⟩

/-- C10 (amended): the roundtrip holds only under side conditions the
source does not guarantee in general — when the tree stores no null
entry (so the found key's value is non-null), every mapping key is
nonempty, dot-free and not integer-parsable, and every sequence has at
most 10 elements (so the single-rune index rendering
`string(rune(i+'0'))` is a decimal digit): then a non-empty `FindPath`
result resolves through `Path` to a non-Null value. -/
theorem findPath_resolves_amended (v : GoVal) (key : String)
    (hg : goodVal v = true) (hne : findPath v key ≠ "") :
    pathV v (findPath v key) ≠ .vnull := by
  have hp : findPathRecA 11 key "" v ≠ "" := by
    intro h
    apply hne
    rw [findPath, h]
    rfl
  have hinv : pathSteps v (goSplitDot "") = v := rfl
  have hmain := findPathRecA_sound key 11 "" v v hg hinv hp
  rw [findPath, pathV_trimLeadingDot]
  exact hmain

/-- Closed witness for C10 at a concrete input. -/
theorem findPath_resolves_amended_witness :
    goodVal (.vobj [("user", .vobj [("email", .vstr "e")])]) = true ∧
    findPath (.vobj [("user", .vobj [("email", .vstr "e")])]) "email" ≠ "" ∧
    pathV (.vobj [("user", .vobj [("email", .vstr "e")])])
      (findPath (.vobj [("user", .vobj [("email", .vstr "e")])]) "email") ≠ .vnull :=
  ⟨rfl, by decide,
   findPath_resolves_amended _ "email" rfl (by decide)⟩

end EasyJson
